import Mathlib

/-!
Verification development for the PPO optimization core in
`tensor2tensor/rl/ppo.py`.

Shallow embedding conventions:

* Float tensors are modeled over the rationals.  In the decode /
  advantage / discounted-reward pipeline the only operations are
  addition, multiplication and subtraction, so starting from finite
  inputs the only non-finite value that can arise is the NaN produced by
  the 0/0 renormalization inside the value decoder; that pipeline is
  therefore modeled with `V := Option ℚ`, where `none` is NaN and
  `some q` a finite value, and the operations propagate NaN as IEEE
  does.  The minibatch loss computation additionally divides by the old
  action probability, which can produce signed infinities that
  TensorFlow clip / minimum absorb rather than propagate; that
  computation is modeled with the three-state type `F` (finite, signed
  infinity, NaN) whose operations follow IEEE 754 exactly.
* Time-major tensors of shape `[T, B]` are modeled along the time axis as
  lists; the batch axis is fully pointwise in the source (every operation
  acts independently on each batch column), so one column is embedded.
* `tf.scan` is modeled by `tfScan`, which returns the list of all
  intermediate accumulator values, exactly as `tf.scan` stacks them.
* `tf.check_numerics` is modeled by `check_numerics`, which either returns
  the finite contents of a tensor or fails with the message string.
  Fallible computations therefore live in `Except String`.
* `tf.nn.softmax` applies the real exponential, which is not exactly
  representable over ℚ.  The development is parametrized by a function
  `qexp : ℚ → ℚ` standing for the exponential; every theorem that depends
  on its behavior assumes only strict positivity (`0 < qexp x`), which is
  the property of the true exponential that the code relies on.  Concrete
  witnesses instantiate `qexp` with the constant-one function `qexp1`,
  which agrees with the true exponential on all-zero logit vectors.
* External collaborators (the policy network `get_policy`, the optimizer,
  the learning-rate schedule, `tfp.distributions.Categorical`) enter the
  embedding as explicit inputs, per the interface boundary of the spec.
-/

/-- A float scalar in the decode / advantage pipeline: `some q` is a
finite value, `none` is NaN.  (Only addition, multiplication and
subtraction occur in that pipeline, so no infinity can arise there from
finite inputs; the NaN comes from the 0/0 renormalization in the value
decoder.) -/
abbrev V : Type := Option ℚ

/-- Injection of a finite float into `V`. -/
def vof (q : ℚ) : V := some q

/-- Float addition; NaN propagates. -/
def vadd : V → V → V
  | some a, some b => vof (a + b)
  | _, _ => none

/-- Float multiplication; NaN propagates (IEEE: `NaN * 0 = NaN`). -/
def vmul : V → V → V
  | some a, some b => vof (a * b)
  | _, _ => none

/-- Float subtraction; NaN propagates. -/
def vsub : V → V → V
  | some a, some b => vof (a - b)
  | _, _ => none

/-- `tf.scan fn elems initializer`: the list of all intermediate
accumulator values, in order, exactly as `tf.scan` stacks them (the
initializer itself is not included in the output). -/
def tfScan {σ α : Type} (f : σ → α → σ) : List α → σ → List σ
  | [], _ => []
  | x :: rest, a =>
    let a2 := f a x
    a2 :: tfScan f rest a2

/-- Sequencing a tensor of possibly non-finite floats: `some` of the
contents when every entry is finite, `none` otherwise. -/
def seqV : List V → Option (List ℚ)
  | [] => some []
  | none :: _ => none
  | some q :: rest => (seqV rest).map (q :: ·)

/-- `tf.check_numerics t message`: returns the (finite) tensor unchanged,
or fails with the message when any entry is non-finite. -/
def check_numerics (message : String) (t : List V) : Except String (List ℚ) :=
  match seqV t with
  | some l => Except.ok l
  | none => Except.error message

/-- Casting a done flag to float: `tf.cast done tf.float32`. -/
def b2q (b : Bool) : ℚ := if b then 1 else 0

/-- `tf.nn.softmax`: exponentiate (via the supplied exponential stand-in
`qexp`) and normalize by the total. -/
def softmax (qexp : ℚ → ℚ) (l : List ℚ) : List ℚ :=
  let e := l.map qexp
  e.map (fun x => x / e.sum)

/-- `tf.cumsum` along the bucket axis (inclusive prefix sums). -/
def cumsum (l : List ℚ) : List ℚ := tfScan (· + ·) l 0

/-- The bucket centers of `_distributional_to_value`:
`(tf.to_float (tf.range (-half) half) + 0.5) * subscale` with
`half = size // 2`, i.e. the list `[(i - half + 1/2) * subscale]` for
`i` ranging over `0, ..., 2*half - 1`. -/
def value_range (size : ℕ) (subscale : ℚ) : List ℚ :=
  (List.range (2 * (size / 2))).map
    (fun (i : ℕ) => ((i : ℚ) - ((size / 2 : ℕ) : ℚ) + 1 / 2) * subscale)

/-- The tail-thresholded probabilities of `_distributional_to_value`:
probabilities are zeroed on every bucket whose inclusive cumulative
probability is strictly below the threshold
(`tf.where (accumulated_probs < threshold) zeros probs`). -/
def thresholded_probs (probs : List ℚ) (threshold : ℚ) : List ℚ :=
  List.zipWith (fun a p => if a < threshold then 0 else p) (cumsum probs) probs

/-- `_distributional_to_value value_d size subscale threshold` (the
source name carries a leading underscore): decode a categorical value
distribution to a scalar expectation.  With `threshold = 0` this is the
plain expectation of the bucket centers under `softmax value_d`; with a
nonzero threshold the low-cumulative-probability tail is zeroed and the
remaining mass renormalized.  The renormalizing division is unguarded in
the source; when the surviving mass is zero it produces NaN (`none`). -/
def distributional_to_value (qexp : ℚ → ℚ) (value_d : List ℚ) (size : ℕ)
    (subscale threshold : ℚ) : V :=
  let probs := softmax qexp value_d
  if threshold = 0 then
    vof ((List.zipWith (· * ·) probs (value_range size subscale)).sum)
  else
    let probs2 := thresholded_probs probs threshold
    if probs2.sum = 0 then none
    else
      vof ((List.zipWith (· * ·) (probs2.map (· / probs2.sum))
        (value_range size subscale)).sum)

/-- The constant-one stand-in for the exponential, used by concrete
witnesses.  It is strictly positive everywhere and agrees with the true
exponential on zero logits, so concrete computations below correspond to
runs of the real code on all-zero logit vectors. -/
def qexp1 : ℚ → ℚ := fun _ => 1

/-- `calculate_generalized_advantage_estimator reward value done gae_gamma
gae_lambda`: the GAE backward recurrence of the source, including the
final `tf.check_numerics(return_, "return")`.

Mirrors the source line by line:
`next_value = value[1:]`, `next_not_done = 1 - tf.cast(done[1:], float)`,
`delta = reward[:-1] + gae_gamma * next_value * next_not_done - value[:-1]`,
then a `tf.scan` over the reversed `delta` and `next_not_done` with body
`cur[0] + cur[1] * gae_gamma * gae_lambda * agg` and a zero initializer,
reversed back. -/
def calculate_generalized_advantage_estimator (reward value : List V)
    (done : List Bool) (gae_gamma gae_lambda : ℚ) : Except String (List ℚ) :=
  let next_value := value.drop 1
  let next_not_done := (done.drop 1).map (fun d => vof (1 - b2q d))
  let delta := List.zipWith
    (fun rv vn => vsub (vadd rv.1 (vmul (vmul (vof gae_gamma) vn.1) vn.2)) rv.2)
    (reward.dropLast.zip value.dropLast) (next_value.zip next_not_done)
  let return_ := (tfScan
    (fun agg cur => vadd cur.1 (vmul (vmul (vmul cur.2 (vof gae_gamma)) (vof gae_lambda)) agg))
    ((delta.reverse).zip (next_not_done.reverse)) (vof 0)).reverse
  check_numerics "return" return_

/-- `discounted_rewards reward done gae_gamma end_values`: the
bootstrapped discounted-return recurrence of the source, including the
final `tf.check_numerics(return_, "return")`.

Mirrors the source: `not_done = 1 - tf.cast(done, float)`,
`end_values = end_values * not_done[-1]`, then a reversed `tf.scan` with
body `cur + gae_gamma * agg` over `reward * not_done`, seeded with the
masked end values.  (`tf.scan` with `reverse=True` processes the elements
from the last to the first and emits its outputs in the original order;
this is modeled by scanning the reversed list and reversing the result.)
The source would fail on an empty trajectory when indexing
`not_done[-1]`; the embedding uses an arbitrary default there, and every
theorem below constrains the time length away from that dead case. -/
def discounted_rewards (reward : List V) (done : List Bool) (gae_gamma : ℚ)
    (end_values : V) : Except String (List ℚ) :=
  let not_done := done.map (fun d => vof (1 - b2q d))
  let end_values2 := vmul end_values (not_done.getLastD (vof 1))
  let return_ := (tfScan (fun agg cur => vadd cur (vmul (vof gae_gamma) agg))
    ((List.zipWith vmul reward not_done).reverse) end_values2).reverse
  check_numerics "return" return_

/-- The advantage / training-target portion of `define_ppo_epoch` in the
scalar value mode (`distributional_size = 1`): `value = value_sm`, the
advantage is the GAE, and
`discounted_reward = tf.stop_gradient(advantage + value[:-1])`
(`tf.stop_gradient` is the identity on values).  Inputs are the collected
(finite) trajectory tensors. -/
def epoch_targets_scalar (reward value_sm : List ℚ) (done : List Bool)
    (gae_gamma gae_lambda : ℚ) : Except String (List ℚ × List ℚ) :=
  match calculate_generalized_advantage_estimator
      (reward.map vof) (value_sm.map vof) done gae_gamma gae_lambda with
  | Except.error e => Except.error e
  | Except.ok advantage =>
    Except.ok (advantage, List.zipWith (· + ·) advantage value_sm.dropLast)

/-- The advantage / training-target portion of `define_ppo_epoch` in the
distributional value mode (`distributional_size > 1`), lines 120-137 of
the source: `value` is the thresholded decode of the logits `value_sm`;
`plain_value` is the same tensor unless `distributional_threshold > 1`,
in which case it is re-decoded with threshold `0`; the advantage is the
GAE over the decoded `value`; and the discounted reward is recomputed by
`discounted_rewards` seeded with `end_values = plain_value[-1]`.
(The scalar-mode target `advantage + value[:-1]` built on line 130 is
dead in this mode, because line 132 overwrites it.) -/
def epoch_targets_distributional (qexp : ℚ → ℚ) (reward : List ℚ)
    (done : List Bool) (value_sm : List (List ℚ)) (distributional_size : ℕ)
    (subscale threshold gae_gamma gae_lambda : ℚ) :
    Except String (List ℚ × List ℚ) :=
  let value := value_sm.map
    (fun row => distributional_to_value qexp row distributional_size subscale threshold)
  let plain_value := if threshold > 1 then
    value_sm.map (fun row => distributional_to_value qexp row distributional_size subscale 0)
  else value
  match calculate_generalized_advantage_estimator
      (reward.map vof) value done gae_gamma gae_lambda with
  | Except.error e => Except.error e
  | Except.ok advantage =>
    match discounted_rewards (reward.map vof) done gae_gamma
        (plain_value.getLastD (vof 0)) with
    | Except.error e => Except.error e
    | Except.ok discounted_reward => Except.ok (advantage, discounted_reward)

/-- The minibatch bookkeeping of `define_ppo_epoch`, lines 146-154:
`number_of_batches = (epoch_length - 1) * optimization_epochs
// optimization_batch_size`; when `effective_num_agents` is configured,
`number_of_batches` is further multiplied by the nominal `batch_size`
and floor-divided by `effective_num_agents`, and `epoch_length` is
floor-divided by `effective_num_agents`.  Returns the pair
`(number_of_batches, epoch_length)`.  All quantities are nonnegative
integers, so Python floor division is `Nat` division. -/
def number_of_batches_and_epoch_length (epoch_length optimization_epochs
    optimization_batch_size batch_size : ℕ)
    (effective_num_agents : Option ℕ) : ℕ × ℕ :=
  let number_of_batches :=
    (epoch_length - 1) * optimization_epochs / optimization_batch_size
  match effective_num_agents with
  | none => (number_of_batches, epoch_length)
  | some ena => (number_of_batches * batch_size / ena, epoch_length / ena)

/-- The concatenated-and-truncated shuffle of `define_ppo_epoch`, lines
157-161: the per-optimization-epoch random permutations of
`tf.range (epoch_length - 1)` (modeled as an explicit list `perms` of
permutation outcomes) are concatenated and truncated to
`number_of_batches * optimization_batch_size` entries. -/
def shuffled_indices (perms : List (List ℕ))
    (number_of_batches optimization_batch_size : ℕ) : List ℕ :=
  perms.flatten.take (number_of_batches * optimization_batch_size)

/-- The minibatch index table of `define_ppo_epoch`, lines 162-163:
`tf.reshape(shuffled_indices, (-1, optimization_batch_size))`, i.e. the
truncated shuffle cut into consecutive rows of
`optimization_batch_size` entries. -/
def indices_of_batches (perms : List (List ℕ))
    (number_of_batches optimization_batch_size : ℕ) : List (List ℕ) :=
  let s := shuffled_indices perms number_of_batches optimization_batch_size
  (List.range (s.length / optimization_batch_size)).map
    (fun i => (s.drop (i * optimization_batch_size)).take optimization_batch_size)

/-- `tf.clip_by_value` on finite scalars. -/
def clip_by_value (x lo hi : ℚ) : ℚ := min (max x lo) hi

/-- The elementwise clipped-surrogate objective of `define_ppo_step`,
lines 49-55, on finite scalars: with `cr` the importance ratio clipped to
`[1 - clipping_coef, 1 + clipping_coef]`, the objective is
`min (cr * norm_advantage) (ratio * norm_advantage)`.  (`rr` models the
source variable `ratio`.) -/
def surrogate_objective (rr norm_advantage clipping_coef : ℚ) : ℚ :=
  min (clip_by_value rr (1 - clipping_coef) (1 + clipping_coef) * norm_advantage)
    (rr * norm_advantage)

/-- A float scalar for the minibatch loss computation: a finite value
`F.fin q`, a signed infinity `F.inf pos` (`F.inf true` is positive
infinity), or `F.nan`.  The importance-ratio division of
`define_ppo_step` can produce genuine signed infinities, which the
TensorFlow clip / minimum operations absorb rather than propagate, so
this layer distinguishes infinities from NaN. -/
inductive F : Type where
  | fin (q : ℚ)
  | inf (pos : Bool)
  | nan
deriving DecidableEq

/-- IEEE addition.  Opposite infinities give NaN; NaN propagates. -/
def fadd : F → F → F
  | F.nan, _ => F.nan
  | _, F.nan => F.nan
  | F.fin a, F.fin b => F.fin (a + b)
  | F.fin _, F.inf s => F.inf s
  | F.inf s, F.fin _ => F.inf s
  | F.inf s, F.inf t => if s = t then F.inf s else F.nan

/-- IEEE negation. -/
def fneg : F → F
  | F.fin a => F.fin (-a)
  | F.inf s => F.inf (!s)
  | F.nan => F.nan

/-- IEEE subtraction: addition of the negation. -/
def fsub (a b : F) : F := fadd a (fneg b)

/-- IEEE multiplication.  `0 * Inf = NaN`; signs multiply; NaN
propagates. -/
def fmul : F → F → F
  | F.nan, _ => F.nan
  | _, F.nan => F.nan
  | F.fin a, F.fin b => F.fin (a * b)
  | F.fin a, F.inf s => if a = 0 then F.nan else if 0 < a then F.inf s else F.inf (!s)
  | F.inf s, F.fin a => if a = 0 then F.nan else if 0 < a then F.inf s else F.inf (!s)
  | F.inf s, F.inf t => if s = t then F.inf true else F.inf false

/-- IEEE division (with a positive zero, as in the nonnegative
probability tensors here): `x / 0` is a signed infinity for `x` nonzero
and NaN for `x = 0`; `finite / Inf = 0`; `Inf / Inf = NaN`; NaN
propagates. -/
def fdiv : F → F → F
  | F.nan, _ => F.nan
  | _, F.nan => F.nan
  | F.fin a, F.fin b =>
    if b = 0 then (if a = 0 then F.nan else if 0 < a then F.inf true else F.inf false)
    else F.fin (a / b)
  | F.inf s, F.fin b => if b < 0 then F.inf (!s) else F.inf s
  | F.fin _, F.inf _ => F.fin 0
  | F.inf _, F.inf _ => F.nan

/-- The IEEE less-than comparison (false whenever an operand is NaN). -/
def flt : F → F → Bool
  | F.nan, _ => false
  | _, F.nan => false
  | F.fin a, F.fin b => decide (a < b)
  | F.inf s, F.fin _ => !s
  | F.fin _, F.inf s => s
  | F.inf s, F.inf t => !s && t

/-- `tf.minimum x y`: the Eigen scalar kernel computes
`std.min x y = if y < x then y else x` with the IEEE comparison, so a
finite operand absorbs an opposite infinity
(`minimum finite (+Inf) = finite`). -/
def fmin (x y : F) : F := if flt y x then y else x

/-- `tf.maximum x y = if x < y then y else x` with the IEEE
comparison. -/
def fmax (x y : F) : F := if flt x y then y else x

/-- `tf.clip_by_value t lo hi`, which TensorFlow computes as
`maximum (minimum t hi) lo`.  A `+Inf` input clips to the finite upper
bound `hi`. -/
def fclip (x lo hi : F) : F := fmax (fmin x hi) lo

/-- `tf.reduce_sum` over a (1-D) tensor of IEEE scalars. -/
def fsum (l : List F) : F := l.foldr fadd (F.fin 0)

/-- `tf.reduce_mean` over a (1-D) tensor of IEEE scalars: sum divided by
the element count. -/
def freduce_mean (l : List F) : F := fdiv (fsum l) (F.fin (l.length : ℚ))

/-- The loss computation of `define_ppo_step` in the scalar value mode
(`distributional_size = 1`), returning the list
`[policy_loss, value_loss, entropy_loss]` of line 78.

The external collaborators enter as inputs: `new_pdf` is the probability
of the taken actions under the fresh policy distribution
(`tfp.distributions.Categorical(logits).prob(action)`), `new_value` is
the fresh value head output reshaped to the minibatch, and `entropy` is
the distribution entropy; `old_pdf`, `norm_advantage` and
`discounted_reward` are the gathered minibatch tensors.  The importance
ratio `rr` is `new_pdf / old_pdf` — a division that is unguarded in the
source and can produce infinities or NaN, hence the computation is over
the IEEE scalar type `F`.  The source applies the optimizer update
(`train_op`) and then returns `tf.identity` of the three losses; no
finiteness check appears anywhere on this path, so the model returns the
computed losses directly. -/
def define_ppo_step_losses (new_pdf old_pdf norm_advantage new_value
    discounted_reward entropy : List ℚ)
    (clipping_coef value_loss_coef entropy_loss_coef : ℚ) : List F :=
  let rr := List.zipWith (fun np op => fdiv (F.fin np) (F.fin op)) new_pdf old_pdf
  let clipped := rr.map
    (fun x => fclip x (F.fin (1 - clipping_coef)) (F.fin (1 + clipping_coef)))
  let surrogate := List.zipWith fmin
    (List.zipWith fmul clipped (norm_advantage.map F.fin))
    (List.zipWith fmul rr (norm_advantage.map F.fin))
  let policy_loss := fneg (freduce_mean surrogate)
  let value_error := List.zipWith (fun nv dr => fsub (F.fin nv) (F.fin dr))
    new_value discounted_reward
  let value_loss := fmul (F.fin value_loss_coef)
    (freduce_mean (value_error.map (fun e => fmul e e)))
  let entropy_loss := fneg (fmul (F.fin entropy_loss_coef)
    (freduce_mean (entropy.map F.fin)))
  [policy_loss, value_loss, entropy_loss]

/-- Finiteness of an IEEE scalar. -/
def finiteF : F → Bool
  | F.fin _ => true
  | _ => false

/-- `add_lists_elementwise` from `define_ppo_epoch`, line 144:
`[x + y for x, y in zip(l1, l2)]`. -/
def add_lists_elementwise (l1 l2 : List ℚ) : List ℚ := List.zipWith (· + ·) l1 l2

/-- `tf.reduce_mean` of a finite 1-D tensor. -/
def reduce_mean (l : List ℚ) : ℚ := l.sum / l.length

/-- The loss-accumulating `tf.scan` of `define_ppo_epoch`, lines 167-176:
scanning `add_lists_elementwise a (define_ppo_step ...)` over
`tf.range number_of_batches` from the initializer `[0, 0, 0]`.  The
per-minibatch losses of `define_ppo_step` (which depend on the external
network state mutated by each update) enter as the function
`step_losses`.  As `tf.scan` does, the result stacks every intermediate
accumulator value: entry `k` is the running loss total after minibatch
`k`. -/
def ppo_step_rets (step_losses : ℕ → List ℚ) (number_of_batches : ℕ) :
    List (List ℚ) :=
  tfScan (fun a i => add_lists_elementwise a (step_losses i))
    (List.range number_of_batches) [0, 0, 0]

/-- The epoch loss summaries of `define_ppo_epoch`, line 177-178:
`[tf.reduce_mean(ret) / number_of_batches for ret in ppo_step_rets]`.
The scan output is a list of three stacked tensors (one per loss
component, each of length `number_of_batches`); component `c` of that
structure is `(ppo_step_rets ...).map (fun r => r.getD c 0)`.  (The
learning-rate entry appended afterwards comes from the external schedule
and is not part of the loss computation.) -/
def ppo_summaries (step_losses : ℕ → List ℚ) (number_of_batches : ℕ) :
    List ℚ :=
  let rets := ppo_step_rets step_losses number_of_batches
  (List.range 3).map
    (fun c => reduce_mean (rets.map (fun r => r.getD c 0)) / number_of_batches)

/-! ### Basic lemmas about the float model -/

@[simp] theorem vadd_vof (a b : ℚ) : vadd (vof a) (vof b) = vof (a + b) := rfl

@[simp] theorem vmul_vof (a b : ℚ) : vmul (vof a) (vof b) = vof (a * b) := rfl

@[simp] theorem vsub_vof (a b : ℚ) : vsub (vof a) (vof b) = vof (a - b) := rfl

@[simp] theorem vadd_none_left (b : V) : vadd none b = none := rfl

@[simp] theorem vadd_none_right (a : V) : vadd a none = none := by
  cases a <;> rfl

@[simp] theorem vmul_none_left (b : V) : vmul none b = none := rfl

@[simp] theorem vmul_none_right (a : V) : vmul a none = none := by
  cases a <;> rfl

/-! ### Lemmas about the `tf.scan` model -/

theorem tfScan_length {σ α : Type} (f : σ → α → σ) (l : List α) (a : σ) :
    (tfScan f l a).length = l.length := by
  induction l generalizing a with
  | nil => rfl
  | cons x rest ih => simp [tfScan, ih]

theorem tfScan_append {σ α : Type} (f : σ → α → σ) (xs ys : List α) (a : σ) :
    tfScan f (xs ++ ys) a
      = tfScan f xs a ++ tfScan f ys ((tfScan f xs a).getLastD a) := by
  induction xs generalizing a with
  | nil => simp [tfScan]
  | cons x rest ih =>
    simp only [List.cons_append, tfScan, List.append_eq, ih (f a x),
      List.getLastD_cons]

/-! ### Lemmas about `seqV` and `check_numerics` -/

theorem seqV_map_vof (l : List ℚ) : seqV (l.map vof) = some l := by
  induction l with
  | nil => rfl
  | cons x rest ih => simp [seqV, vof, ih]

theorem seqV_length {t : List V} {l : List ℚ} (h : seqV t = some l) :
    l.length = t.length := by
  induction t generalizing l with
  | nil => simp [seqV] at h; simp [← h]
  | cons x rest ih =>
    cases x with
    | none => simp [seqV] at h
    | some q =>
      simp only [seqV, Option.map_eq_some'] at h
      obtain ⟨l2, h2, rfl⟩ := h
      simp [ih h2]

theorem seqV_none_of_mem {t : List V} (h : none ∈ t) : seqV t = none := by
  induction t with
  | nil => simp at h
  | cons x rest ih =>
    cases x with
    | none => rfl
    | some q =>
      simp only [List.mem_cons] at h
      rcases h with h | h
      · exact absurd h.symm (by simp)
      · simp [seqV, ih h]

theorem check_numerics_map_vof (m : String) (l : List ℚ) :
    check_numerics m (l.map vof) = Except.ok l := by
  simp [check_numerics, seqV_map_vof]

theorem check_numerics_ok_length {m : String} {t : List V} {l : List ℚ}
    (h : check_numerics m t = Except.ok l) : l.length = t.length := by
  unfold check_numerics at h
  cases hs : seqV t with
  | none => simp [hs] at h
  | some l2 =>
    simp only [hs] at h
    cases h
    exact seqV_length hs

theorem check_numerics_none_of_mem {m : String} {t : List V} (h : none ∈ t) :
    check_numerics m t = Except.error m := by
  simp [check_numerics, seqV_none_of_mem h]

/-! ### The GAE recurrence, characterized

`gaeRef` is a direct right-to-left recursive rendering of the GAE
recurrence on finite scalars; the lemmas below prove that the reversed
`tf.scan` of the source computes exactly this. -/

/-- The backward GAE recurrence on a forward list of
`(delta, next_not_done)` pairs over finite scalars:
`A_t = delta_t + next_not_done_t * gamma * lambda * A_(t+1)`, with zero
continuation past the end. -/
def gaeRef (gae_gamma gae_lambda : ℚ) : List (ℚ × ℚ) → List ℚ
  | [] => []
  | p :: rest =>
    (p.1 + p.2 * gae_gamma * gae_lambda * (gaeRef gae_gamma gae_lambda rest).headD 0)
      :: gaeRef gae_gamma gae_lambda rest

/-- The same recurrence over possibly non-finite scalars, mirroring the
scan body of the source verbatim. -/
def gaeRefV (gae_gamma gae_lambda : ℚ) : List (V × V) → List V
  | [] => []
  | p :: rest =>
    vadd p.1 (vmul (vmul (vmul p.2 (vof gae_gamma)) (vof gae_lambda))
        ((gaeRefV gae_gamma gae_lambda rest).headD (vof 0)))
      :: gaeRefV gae_gamma gae_lambda rest

theorem getLastD_eq_reverse_headD {α : Type} (l : List α) (d : α) :
    l.getLastD d = l.reverse.headD d := by
  simp [List.getLastD_eq_getLast?, List.headD_eq_head?_getD, List.head?_reverse]

/-- The reversed `tf.scan` of the source computes `gaeRefV`. -/
theorem tfScan_reverse_eq_gaeRefV (gae_gamma gae_lambda : ℚ) (l : List (V × V)) :
    (tfScan (fun agg cur =>
        vadd cur.1 (vmul (vmul (vmul cur.2 (vof gae_gamma)) (vof gae_lambda)) agg))
      l.reverse (vof 0)).reverse = gaeRefV gae_gamma gae_lambda l := by
  induction l with
  | nil => rfl
  | cons p rest ih =>
    simp only [List.reverse_cons, tfScan_append, tfScan, List.reverse_append,
      List.reverse_cons, List.reverse_nil, List.nil_append, List.cons_append,
      gaeRefV]
    rw [getLastD_eq_reverse_headD, ih]

theorem headD_map_vof (l : List ℚ) : (l.map vof).headD (vof 0) = vof (l.headD 0) := by
  cases l <;> rfl

theorem gaeRefV_map_vof (gae_gamma gae_lambda : ℚ) (l : List (ℚ × ℚ)) :
    gaeRefV gae_gamma gae_lambda (l.map (Prod.map vof vof))
      = (gaeRef gae_gamma gae_lambda l).map vof := by
  induction l with
  | nil => rfl
  | cons p rest ih =>
    simp only [List.map_cons, gaeRefV, gaeRef, ih, headD_map_vof,
      Prod.map_fst, Prod.map_snd, vmul_vof, vadd_vof]

theorem gaeRef_length (gae_gamma gae_lambda : ℚ) (l : List (ℚ × ℚ)) :
    (gaeRef gae_gamma gae_lambda l).length = l.length := by
  induction l with
  | nil => rfl
  | cons p rest ih => simp [gaeRef, ih]

theorem getD_zero_eq_headD {α : Type} (l : List α) (d : α) :
    l.getD 0 d = l.headD d := by
  cases l <;> rfl

/-- The defining recurrence of `gaeRef`, uniformly for every index
(indices past the end read as the zero continuation via `getD`). -/
theorem gaeRef_getD (gae_gamma gae_lambda : ℚ) (l : List (ℚ × ℚ)) (t : ℕ)
    (ht : t < l.length) :
    (gaeRef gae_gamma gae_lambda l).getD t 0
      = (l.getD t (0, 0)).1 + (l.getD t (0, 0)).2 * gae_gamma * gae_lambda *
          ((gaeRef gae_gamma gae_lambda l).getD (t + 1) 0) := by
  induction l generalizing t with
  | nil => simp at ht
  | cons p rest ih =>
    cases t with
    | zero =>
      simp only [gaeRef, List.getD_cons_zero, List.getD_cons_succ]
      rw [getD_zero_eq_headD]
    | succ t =>
      simp only [gaeRef, List.getD_cons_succ]
      exact ih t (by simpa using ht)

/-- The finite image of `next_not_done` inside
`calculate_generalized_advantage_estimator`: `1 - cast done[1:]`. -/
def gaeNndQ (done : List Bool) : List ℚ :=
  (done.drop 1).map (fun d => 1 - b2q d)

/-- The finite image of the TD residual `delta` inside
`calculate_generalized_advantage_estimator`:
`reward[:-1] + gae_gamma * value[1:] * next_not_done - value[:-1]`. -/
def gaeDeltaQ (reward value : List ℚ) (done : List Bool) (gae_gamma : ℚ) : List ℚ :=
  List.zipWith (fun rv vn => rv.1 + gae_gamma * vn.1 * vn.2 - rv.2)
    (reward.dropLast.zip value.dropLast) ((value.drop 1).zip (gaeNndQ done))

theorem gae_nnd_map_vof (done : List Bool) :
    (done.drop 1).map (fun d => vof (1 - b2q d)) = (gaeNndQ done).map vof := by
  simp [gaeNndQ, List.map_map, Function.comp_def]

/-- The TD residual tensor of the source, computed on finite inputs, is
the lift of `gaeDeltaQ`. -/
theorem gae_delta_map_vof (reward value : List ℚ) (done : List Bool) (gae_gamma : ℚ) :
    List.zipWith
        (fun rv vn => vsub (vadd rv.1 (vmul (vmul (vof gae_gamma) vn.1) vn.2)) rv.2)
        ((reward.map vof).dropLast.zip ((value.map vof).dropLast))
        (((value.map vof).drop 1).zip ((done.drop 1).map (fun d => vof (1 - b2q d))))
      = (gaeDeltaQ reward value done gae_gamma).map vof := by
  rw [gae_nnd_map_vof, ← List.map_drop, ← List.map_dropLast, ← List.map_dropLast,
    List.zip_map, List.zip_map, List.zipWith_map, gaeDeltaQ, List.map_zipWith]
  rfl

/-- On finite inputs, `calculate_generalized_advantage_estimator` passes
its finiteness check and computes exactly the `gaeRef` recurrence over
the TD residuals. -/
theorem gae_map_vof (reward value : List ℚ) (done : List Bool)
    (gae_gamma gae_lambda : ℚ)
    (hrv : reward.length = value.length) (hvd : value.length = done.length) :
    calculate_generalized_advantage_estimator (reward.map vof) (value.map vof)
        done gae_gamma gae_lambda
      = Except.ok (gaeRef gae_gamma gae_lambda
          ((gaeDeltaQ reward value done gae_gamma).zip (gaeNndQ done))) := by
  have hlen : (gaeDeltaQ reward value done gae_gamma).length = (gaeNndQ done).length := by
    simp only [gaeDeltaQ, gaeNndQ, List.length_zipWith, List.length_zip,
      List.length_dropLast, List.length_drop, List.length_map]
    omega
  simp only [calculate_generalized_advantage_estimator]
  rw [gae_delta_map_vof, gae_nnd_map_vof, ← List.map_reverse, ← List.map_reverse,
    List.zip_map]
  have hzr : ((gaeDeltaQ reward value done gae_gamma).reverse).zip
      ((gaeNndQ done).reverse)
      = ((gaeDeltaQ reward value done gae_gamma).zip (gaeNndQ done)).reverse := by
    rw [List.zip_eq_zipWith, List.zip_eq_zipWith]
    exact (List.reverse_zipWith hlen).symm
  rw [hzr, List.map_reverse, tfScan_reverse_eq_gaeRefV, gaeRefV_map_vof,
    check_numerics_map_vof]

theorem gaeNndQ_length (done : List Bool) : (gaeNndQ done).length = done.length - 1 := by
  simp [gaeNndQ]

theorem gaeDeltaQ_length (reward value : List ℚ) (done : List Bool) (gae_gamma : ℚ)
    (T : ℕ) (hr : reward.length = T) (hv : value.length = T) (hd : done.length = T) :
    (gaeDeltaQ reward value done gae_gamma).length = T - 1 := by
  simp only [gaeDeltaQ, List.length_zipWith, List.length_zip, gaeNndQ_length,
    List.length_dropLast, List.length_drop, hr, hv, hd]
  omega

theorem gaeNndQ_getD (done : List Bool) (t : ℕ) (ht : t < done.length - 1) :
    (gaeNndQ done).getD t 0 = 1 - b2q (done.getD (t + 1) false) := by
  simp only [gaeNndQ, List.getD_eq_getElem?_getD, List.getElem?_map,
    List.getElem?_drop, Nat.one_add]
  rw [List.getElem?_eq_getElem (l := done) (by omega)]
  rfl

theorem gaeDeltaQ_getD (reward value : List ℚ) (done : List Bool) (gae_gamma : ℚ)
    (T t : ℕ) (hr : reward.length = T) (hv : value.length = T)
    (hd : done.length = T) (ht : t < T - 1) :
    (gaeDeltaQ reward value done gae_gamma).getD t 0
      = reward.getD t 0
        + gae_gamma * value.getD (t + 1) 0 * (1 - b2q (done.getD (t + 1) false))
        - value.getD t 0 := by
  simp only [gaeDeltaQ, gaeNndQ, List.getD_eq_getElem?_getD, List.zip_eq_zipWith,
    List.getElem?_zipWith, List.getElem?_dropLast, List.getElem?_map,
    List.getElem?_drop, Nat.one_add]
  rw [if_pos (by omega), if_pos (by omega)]
  rw [List.getElem?_eq_getElem (l := reward) (by omega),
    List.getElem?_eq_getElem (l := value) (n := t) (by omega),
    List.getElem?_eq_getElem (l := value) (n := t + 1) (by omega),
    List.getElem?_eq_getElem (l := done) (by omega)]
  rfl

theorem zip_getD {α β : Type} (l1 : List α) (l2 : List β) (d1 : α) (d2 : β)
    (t : ℕ) (h1 : t < l1.length) (h2 : t < l2.length) :
    (l1.zip l2).getD t (d1, d2) = (l1.getD t d1, l2.getD t d2) := by
  simp only [List.getD_eq_getElem?_getD, List.zip_eq_zipWith, List.getElem?_zipWith]
  rw [List.getElem?_eq_getElem (l := l1) h1, List.getElem?_eq_getElem (l := l2) h2]
  rfl

/-- Claim C3: for equal-length reward, value, done tensors of time length
`T ≥ 2` and scalars `gae_gamma`, `gae_lambda`, the generalized advantage
estimator returns a tensor `A` of time length `T - 1` satisfying the
backward recurrence
`A_t = delta_t + gae_gamma * gae_lambda * (1 - done_(t+1)) * A_(t+1)`
with `delta_t = reward_t + gae_gamma * value_(t+1) * (1 - done_(t+1)) - value_t`
for `t` in `[0, T-2]` (indices past the end reading as zero via `getD`),
and the last index has zero continuation: `A_(T-2) = delta_(T-2)`. -/
theorem gae_satisfies_backward_recurrence (reward value : List ℚ) (done : List Bool)
    (gae_gamma gae_lambda : ℚ) (T : ℕ) (hT : 2 ≤ T)
    (hr : reward.length = T) (hv : value.length = T) (hd : done.length = T) :
    ∃ A : List ℚ,
      calculate_generalized_advantage_estimator (reward.map vof) (value.map vof)
          done gae_gamma gae_lambda = Except.ok A
      ∧ A.length = T - 1
      ∧ (∀ t, t < T - 1 →
          A.getD t 0
            = (reward.getD t 0
                + gae_gamma * value.getD (t + 1) 0 * (1 - b2q (done.getD (t + 1) false))
                - value.getD t 0)
              + gae_gamma * gae_lambda * (1 - b2q (done.getD (t + 1) false))
                * A.getD (t + 1) 0)
      ∧ A.getD (T - 2) 0
          = reward.getD (T - 2) 0
            + gae_gamma * value.getD (T - 1) 0 * (1 - b2q (done.getD (T - 1) false))
            - value.getD (T - 2) 0 := by
  have hD : (gaeDeltaQ reward value done gae_gamma).length = T - 1 :=
    gaeDeltaQ_length reward value done gae_gamma T hr hv hd
  have hN : (gaeNndQ done).length = T - 1 := by rw [gaeNndQ_length, hd]
  have hL : ((gaeDeltaQ reward value done gae_gamma).zip (gaeNndQ done)).length = T - 1 := by
    simp [List.length_zip, hD, hN]
  have hrec : ∀ t, t < T - 1 →
      (gaeRef gae_gamma gae_lambda
          ((gaeDeltaQ reward value done gae_gamma).zip (gaeNndQ done))).getD t 0
        = (reward.getD t 0
            + gae_gamma * value.getD (t + 1) 0 * (1 - b2q (done.getD (t + 1) false))
            - value.getD t 0)
          + gae_gamma * gae_lambda * (1 - b2q (done.getD (t + 1) false))
            * (gaeRef gae_gamma gae_lambda
                ((gaeDeltaQ reward value done gae_gamma).zip (gaeNndQ done))).getD (t + 1) 0 := by
    intro t ht
    rw [gaeRef_getD gae_gamma gae_lambda _ t (by rw [hL]; exact ht)]
    rw [zip_getD _ _ 0 0 t (by rw [hD]; exact ht) (by rw [hN]; exact ht)]
    rw [gaeDeltaQ_getD reward value done gae_gamma T t hr hv hd ht,
      gaeNndQ_getD done t (by rw [hd]; exact ht)]
    ring
  refine ⟨gaeRef gae_gamma gae_lambda
      ((gaeDeltaQ reward value done gae_gamma).zip (gaeNndQ done)),
    gae_map_vof reward value done gae_gamma gae_lambda (by rw [hr, hv]) (by rw [hv, hd]),
    by rw [gaeRef_length, hL], hrec, ?_⟩
  have h2 : T - 2 < T - 1 := by omega
  have h21 : T - 2 + 1 = T - 1 := by omega
  have hzero : (gaeRef gae_gamma gae_lambda
      ((gaeDeltaQ reward value done gae_gamma).zip (gaeNndQ done))).getD (T - 1) 0 = 0 := by
    apply List.getD_eq_default
    rw [gaeRef_length, hL]
  rw [hrec (T - 2) h2, h21, hzero]
  ring

/-- Witness: the GAE recurrence theorem applied at a concrete input. -/
theorem gae_satisfies_backward_recurrence_witness :
    ∃ A : List ℚ,
      calculate_generalized_advantage_estimator ([1, 2].map vof) ([3, 4].map vof)
          [false, true] (1/2) (1/3) = Except.ok A
      ∧ A.length = 2 - 1
      ∧ (∀ t, t < 2 - 1 →
          A.getD t 0
            = ([1, 2].getD t 0
                + (1/2) * [3, 4].getD (t + 1) 0
                  * (1 - b2q ([false, true].getD (t + 1) false))
                - [3, 4].getD t 0)
              + (1/2) * (1/3) * (1 - b2q ([false, true].getD (t + 1) false))
                * A.getD (t + 1) 0)
      ∧ A.getD (2 - 2) 0
          = [1, 2].getD (2 - 2) 0
            + (1/2) * [3, 4].getD (2 - 1) 0
              * (1 - b2q ([false, true].getD (2 - 1) false))
            - [3, 4].getD (2 - 2) 0 :=
  gae_satisfies_backward_recurrence [1, 2] [3, 4] [false, true] (1/2) (1/3) 2
    (by norm_num) rfl rfl rfl

/-- Claim C7: `number_of_batches` equals
`((epoch_length - 1) * optimization_epochs) // optimization_batch_size`;
when `effective_num_agents` is configured, it is then multiplied by the
nominal `batch_size` and integer-divided by `effective_num_agents`, and
`epoch_length` is integer-divided by `effective_num_agents`; in
particular for `epoch_length = 129`, `optimization_epochs = 4`,
`optimization_batch_size = 64`, `effective_num_agents = None` the result
is `8`. -/
theorem number_of_batches_formula (epoch_length optimization_epochs
    optimization_batch_size batch_size ena : ℕ) :
    (number_of_batches_and_epoch_length epoch_length optimization_epochs
        optimization_batch_size batch_size none).1
      = (epoch_length - 1) * optimization_epochs / optimization_batch_size
    ∧ number_of_batches_and_epoch_length epoch_length optimization_epochs
        optimization_batch_size batch_size (some ena)
      = ((epoch_length - 1) * optimization_epochs / optimization_batch_size
          * batch_size / ena, epoch_length / ena)
    ∧ (number_of_batches_and_epoch_length 129 4 64 batch_size none).1 = 8 :=
  ⟨rfl, rfl, rfl⟩

/-- Counterexample to claim C9 as stated: the ratio `0` lies outside
`[1 - 1/2, 1 + 1/2]` and the advantage `1` is strictly positive, yet the
surrogate objective equals the raw ratio term `0 * 1 = 0`, not the
clipped term `(1 - 1/2) * 1 = 1/2`. -/
theorem surrogate_objective_claim_counterexample :
    surrogate_objective 0 1 (1/2) = 0 * 1
    ∧ clip_by_value 0 (1 - 1/2) (1 + 1/2) * 1 = 1/2
    ∧ ((0 : ℚ) < 1 - 1/2 ∨ 1 + 1/2 < (0 : ℚ))
    ∧ (0 : ℚ) < 1
    ∧ surrogate_objective 0 1 (1/2) ≠ clip_by_value 0 (1 - 1/2) (1 + 1/2) * 1 := by
  norm_num [surrogate_objective, clip_by_value]

/-- Claim C9, amended: for a nonnegative clipping coefficient, with
strictly positive advantage the elementwise surrogate objective equals
the clipped term when the ratio exceeds `1 + clipping_coef` and the raw
ratio term when the ratio falls below `1 - clipping_coef`; with strictly
negative advantage the two branches are exchanged. -/
theorem surrogate_objective_branches (rr norm_advantage clipping_coef : ℚ)
    (hc : 0 ≤ clipping_coef) :
    (0 < norm_advantage →
        (1 + clipping_coef < rr →
          surrogate_objective rr norm_advantage clipping_coef
            = clip_by_value rr (1 - clipping_coef) (1 + clipping_coef) * norm_advantage)
      ∧ (rr < 1 - clipping_coef →
          surrogate_objective rr norm_advantage clipping_coef = rr * norm_advantage))
    ∧ (norm_advantage < 0 →
        (1 + clipping_coef < rr →
          surrogate_objective rr norm_advantage clipping_coef = rr * norm_advantage)
      ∧ (rr < 1 - clipping_coef →
          surrogate_objective rr norm_advantage clipping_coef
            = clip_by_value rr (1 - clipping_coef) (1 + clipping_coef) * norm_advantage)) := by
  constructor
  · intro hadv
    constructor
    · intro hr
      have hclip : clip_by_value rr (1 - clipping_coef) (1 + clipping_coef)
          = 1 + clipping_coef := by
        unfold clip_by_value
        rw [max_eq_left (by linarith), min_eq_right (by linarith)]
      unfold surrogate_objective
      rw [hclip]
      exact min_eq_left (by nlinarith)
    · intro hr
      have hclip : clip_by_value rr (1 - clipping_coef) (1 + clipping_coef)
          = 1 - clipping_coef := by
        unfold clip_by_value
        rw [max_eq_right (le_of_lt hr), min_eq_left (by linarith)]
      unfold surrogate_objective
      rw [hclip]
      exact min_eq_right (by nlinarith)
  · intro hadv
    constructor
    · intro hr
      have hclip : clip_by_value rr (1 - clipping_coef) (1 + clipping_coef)
          = 1 + clipping_coef := by
        unfold clip_by_value
        rw [max_eq_left (by linarith), min_eq_right (by linarith)]
      unfold surrogate_objective
      rw [hclip]
      exact min_eq_right (by nlinarith)
    · intro hr
      have hclip : clip_by_value rr (1 - clipping_coef) (1 + clipping_coef)
          = 1 - clipping_coef := by
        unfold clip_by_value
        rw [max_eq_right (le_of_lt hr), min_eq_left (by linarith)]
      unfold surrogate_objective
      rw [hclip]
      exact min_eq_left (by nlinarith)

/-- Witness: the amended surrogate-objective branch theorem applied at
concrete inputs exercising one branch. -/
theorem surrogate_objective_branches_witness :
    (0 < (1 : ℚ) →
        (1 + 1/2 < (2 : ℚ) →
          surrogate_objective 2 1 (1/2) = clip_by_value 2 (1 - 1/2) (1 + 1/2) * 1)
      ∧ ((2 : ℚ) < 1 - 1/2 → surrogate_objective 2 1 (1/2) = 2 * 1))
    ∧ ((1 : ℚ) < 0 →
        (1 + 1/2 < (2 : ℚ) → surrogate_objective 2 1 (1/2) = 2 * 1)
      ∧ ((2 : ℚ) < 1 - 1/2 →
          surrogate_objective 2 1 (1/2) = clip_by_value 2 (1 - 1/2) (1 + 1/2) * 1)) :=
  surrogate_objective_branches 2 1 (1/2) (by norm_num)

/-- Claim C10: the decoder constructs exactly `2 * (size // 2)` bucket
centers, so the expectation over the softmax probabilities is
shape-correct and matches the bucket-center formula
`(i - size/2 + 0.5) * subscale` for all `i < size` only when `size` is
even; for every odd `size` the centers vector has length `size - 1`,
which differs from the length-`size` probability vector, so the
elementwise product is not well-defined (a TensorFlow shape error). -/
theorem value_range_bucket_centers (qexp : ℚ → ℚ) (value_d : List ℚ)
    (size : ℕ) (subscale : ℚ) (hsz : value_d.length = size) :
    (value_range size subscale).length = 2 * (size / 2)
    ∧ (size % 2 = 0 → ∀ i, i < size →
        (value_range size subscale).getD i 0
          = ((i : ℚ) - (size : ℚ) / 2 + 1/2) * subscale)
    ∧ (size % 2 = 1 →
        (value_range size subscale).length = size - 1
        ∧ (value_range size subscale).length ≠ (softmax qexp value_d).length) := by
  refine ⟨by simp [value_range], ?_, ?_⟩
  · intro he i hi
    have hi2 : i < 2 * (size / 2) := by omega
    have hdvd : 2 ∣ size := Nat.dvd_of_mod_eq_zero he
    have hcast : ((size / 2 : ℕ) : ℚ) * 2 = (size : ℚ) := by
      exact_mod_cast congrArg (Nat.cast (R := ℚ)) (Nat.div_mul_cancel hdvd)
    simp only [value_range, List.getD_eq_getElem?_getD, List.getElem?_map,
      List.getElem?_range hi2]
    simp only [Option.map_some', Option.getD_some]
    have : ((size / 2 : ℕ) : ℚ) = (size : ℚ) / 2 := by linarith
    rw [this]
  · intro ho
    have hlen : (value_range size subscale).length = size - 1 := by
      simp only [value_range, List.length_map, List.length_range]
      omega
    refine ⟨hlen, ?_⟩
    have hs : (softmax qexp value_d).length = size := by
      simp [softmax, hsz]
    rw [hlen, hs]
    omega

/-- Witness: the bucket-center theorem applied at a concrete odd size and
a concrete even size is covered by instantiating at size 3. -/
theorem value_range_bucket_centers_witness :
    (value_range 3 1).length = 2 * (3 / 2)
    ∧ (3 % 2 = 0 → ∀ i, i < 3 →
        (value_range 3 1).getD i 0 = ((i : ℚ) - (3 : ℚ) / 2 + 1/2) * 1)
    ∧ (3 % 2 = 1 →
        (value_range 3 1).length = 3 - 1
        ∧ (value_range 3 1).length ≠ (softmax qexp1 [0, 0, 0]).length) :=
  value_range_bucket_centers qexp1 [0, 0, 0] 3 1 rfl

/-- Counterexample to claim C5 as stated: with threshold `2 > 0` and
all-zero logits (where the constant-one exponential stand-in agrees with
the true exponential) the post-threshold-filter probability mass is zero,
and the decoder returns the NaN-valued expectation (`none`) produced by
the unguarded renormalizing division — it does not fail with a
NumericError. -/
theorem decoder_zero_mass_counterexample :
    (0 : ℚ) < 2
    ∧ (thresholded_probs (softmax qexp1 [0, 0]) 2).sum = 0
    ∧ distributional_to_value qexp1 [0, 0] 2 1 2 = none := by
  norm_num [distributional_to_value, softmax, qexp1, thresholded_probs, cumsum,
    tfScan, value_range, List.range_succ]

/-- Claim C5, amended: for every input with nonzero threshold whose
post-threshold-filter probability mass sums to zero, the decoder performs
no guard and returns the non-finite NaN expectation (`none`) from the
division by the zero sum, rather than failing with a NumericError. -/
theorem decoder_returns_nan_on_zero_mass (qexp : ℚ → ℚ) (value_d : List ℚ)
    (size : ℕ) (subscale threshold : ℚ) (ht : threshold ≠ 0)
    (hm : (thresholded_probs (softmax qexp value_d) threshold).sum = 0) :
    distributional_to_value qexp value_d size subscale threshold = none := by
  simp only [distributional_to_value]
  rw [if_neg ht, if_pos hm]

/-- Witness: the amended decoder theorem applied at a concrete
zero-surviving-mass input. -/
theorem decoder_returns_nan_on_zero_mass_witness :
    distributional_to_value qexp1 [0, 0] 2 1 2 = none :=
  decoder_returns_nan_on_zero_mass qexp1 [0, 0] 2 1 2 (by norm_num)
    (by norm_num [thresholded_probs, softmax, qexp1, cumsum, tfScan])

/-! ### Non-finite propagation through the minibatch losses -/

@[simp] theorem finiteF_fin (q : ℚ) : finiteF (F.fin q) = true := rfl

@[simp] theorem finiteF_inf (s : Bool) : finiteF (F.inf s) = false := rfl

@[simp] theorem finiteF_nan : finiteF F.nan = false := rfl

theorem fadd_not_finite_left (a b : F) (h : finiteF a = false) :
    finiteF (fadd a b) = false := by
  cases a <;> cases b <;> simp_all [fadd, apply_ite finiteF]

theorem fadd_not_finite_right (a b : F) (h : finiteF b = false) :
    finiteF (fadd a b) = false := by
  cases a <;> cases b <;> simp_all [fadd, apply_ite finiteF]

theorem fsum_not_finite_of_mem {l : List F} {x : F} (hx : x ∈ l)
    (hxf : finiteF x = false) : finiteF (fsum l) = false := by
  induction l with
  | nil => simp at hx
  | cons y rest ih =>
    rcases List.mem_cons.mp hx with h | h
    · rw [fsum, List.foldr_cons, ← h]
      exact fadd_not_finite_left x _ hxf
    · rw [fsum, List.foldr_cons]
      exact fadd_not_finite_right y _ (ih h)

theorem fdiv_fin_not_finite (a : F) (n : ℚ) (h : finiteF a = false) :
    finiteF (fdiv a (F.fin n)) = false := by
  cases a <;> simp_all [fdiv, apply_ite finiteF]

theorem fneg_not_finite (a : F) (h : finiteF a = false) :
    finiteF (fneg a) = false := by
  cases a <;> simp_all [fneg]

/-- Counterexample to claim C6 as stated: with `new_pdf = 1`,
`old_pdf = 0` and normalized advantage `-1`, the real computation gives
an importance ratio of `1 / 0 = +Inf`, a clipped ratio
`clip_by_value(+Inf, 1/2, 3/2) = 3/2`, a surrogate objective
`minimum(3/2 * (-1), (+Inf) * (-1)) = minimum(-3/2, -Inf) = -Inf`, a
mean of `-Inf`, and hence the non-finite policy loss `+Inf` — which
`define_ppo_step` returns as-is: there is no finiteness check on the
loss path, so no NumericError is raised. -/
theorem step_losses_nonfinite_counterexample :
    define_ppo_step_losses [1] [0] [-1] [0] [0] [0] (1/2) 1 1
      = [F.inf true, F.fin 0, F.fin 0]
    ∧ finiteF ((define_ppo_step_losses [1] [0] [-1] [0] [0] [0]
        (1/2) 1 1).getD 0 (F.fin 0)) = false := by
  constructor
  · norm_num [define_ppo_step_losses, fdiv, fclip, fmax, fmin, flt, fmul, fadd,
      fsub, fneg, fsum, freduce_mean]
  · norm_num [define_ppo_step_losses, fdiv, fclip, fmax, fmin, flt, fmul, fadd,
      fsub, fneg, fsum, freduce_mean, finiteF]

/-- Claim C6, amended: the minibatch step applies no finiteness check to
the computed loss components; a non-finite component is returned rather
than trapped.  In particular, whenever at some minibatch index the old
action probability is zero while the fresh action probability is
strictly positive and the normalized advantage strictly negative, the
importance ratio is `+Inf`, the surrogate objective at that index is
`-Inf`, and the returned policy-loss component (index 0 of the returned
loss list) is non-finite. -/
theorem step_losses_returned_unchecked (new_pdf old_pdf norm_advantage new_value
    discounted_reward entropy : List ℚ)
    (clipping_coef value_loss_coef entropy_loss_coef : ℚ) (i : ℕ)
    (hi : i < new_pdf.length)
    (hop : old_pdf.length = new_pdf.length)
    (hadv : norm_advantage.length = new_pdf.length)
    (hz : old_pdf.getD i 0 = 0)
    (hnp : 0 < new_pdf.getD i 0)
    (hna : norm_advantage.getD i 0 < 0) :
    finiteF ((define_ppo_step_losses new_pdf old_pdf norm_advantage new_value
        discounted_reward entropy clipping_coef value_loss_coef
        entropy_loss_coef).getD 0 (F.fin 0)) = false := by
  have hiop : i < old_pdf.length := by omega
  have hiadv : i < norm_advantage.length := by omega
  have h0 : old_pdf[i] = 0 := by
    rw [← List.getD_eq_getElem old_pdf 0 hiop]
    exact hz
  have h1 : (0 : ℚ) < new_pdf[i] := by
    rw [← List.getD_eq_getElem new_pdf 0 hi]
    exact hnp
  have h2 : norm_advantage[i] < 0 := by
    rw [← List.getD_eq_getElem norm_advantage 0 hiadv]
    exact hna
  have key : ∀ l : List F, (∃ x ∈ l, finiteF x = false) →
      finiteF (fneg (freduce_mean l)) = false := by
    rintro l ⟨x, hx, hxf⟩
    exact fneg_not_finite _
      (fdiv_fin_not_finite _ _ (fsum_not_finite_of_mem hx hxf))
  simp only [define_ppo_step_losses, List.getD_cons_zero]
  apply key
  refine ⟨F.inf false, ?_, rfl⟩
  refine List.getElem?_mem (n := i) ?_
  simp only [List.getElem?_zipWith, List.getElem?_map,
    List.getElem?_eq_getElem (l := new_pdf) hi,
    List.getElem?_eq_getElem (l := old_pdf) hiop,
    List.getElem?_eq_getElem (l := norm_advantage) hiadv]
  by_cases hcc : (1 + clipping_coef) < (1 - clipping_coef) <;>
    simp [h0, h1, h1.ne', fdiv, fclip, fmin, fmax, flt, fmul, hcc,
      ne_of_lt h2, lt_asymm h2]

/-- Witness: the amended no-finiteness-check theorem applied at the
concrete minibatch with zero old probability, positive fresh
probability, and negative advantage. -/
theorem step_losses_returned_unchecked_witness :
    finiteF ((define_ppo_step_losses [1] [0] [-1] [0] [0] [0]
        (1/2) 1 1).getD 0 (F.fin 0)) = false :=
  step_losses_returned_unchecked [1] [0] [-1] [0] [0] [0] (1/2) 1 1 0
    (by decide) rfl rfl (by simp) (by norm_num) (by norm_num)

/-! ### Time lengths of the epoch targets -/

theorem gae_ok_length {reward value : List V} {done : List Bool}
    {gae_gamma gae_lambda : ℚ} {A : List ℚ} {T : ℕ}
    (hr : reward.length = T) (hv : value.length = T) (hd : done.length = T)
    (h : calculate_generalized_advantage_estimator reward value done
      gae_gamma gae_lambda = Except.ok A) : A.length = T - 1 := by
  simp only [calculate_generalized_advantage_estimator] at h
  have hlen := check_numerics_ok_length h
  rw [hlen]
  simp only [List.length_reverse, tfScan_length, List.length_zip,
    List.length_zipWith, List.length_dropLast, List.length_drop,
    List.length_map, hr, hv, hd]
  omega

theorem discounted_rewards_ok_length {reward : List V} {done : List Bool}
    {gae_gamma : ℚ} {end_values : V} {R : List ℚ} {T : ℕ}
    (hr : reward.length = T) (hd : done.length = T)
    (h : discounted_rewards reward done gae_gamma end_values = Except.ok R) :
    R.length = T := by
  simp only [discounted_rewards] at h
  have hlen := check_numerics_ok_length h
  rw [hlen]
  simp only [List.length_reverse, tfScan_length, List.length_zipWith,
    List.length_map, hr, hd]
  omega

/-- Counterexample to claim C2 as stated: on a trajectory of
`epoch_length = 2` in the distributional mode, the discounted-reward
training target produced by the epoch driver has time length `2`
(the full epoch length), not `epoch_length - 1 = 1`; only the advantage
has length `1`. -/
theorem epoch_targets_length_counterexample :
    epoch_targets_distributional qexp1 [0, 0] [false, false] [[0, 0], [0, 0]]
        2 1 0 1 1
      = Except.ok ([0], [0, 0])
    ∧ ([(0 : ℚ), 0] : List ℚ).length = 2
    ∧ (2 : ℕ) ≠ 2 - 1 := by
  refine ⟨?_, rfl, by omega⟩
  norm_num [epoch_targets_distributional, distributional_to_value, softmax, qexp1,
    value_range, List.range_succ, thresholded_probs, cumsum, tfScan,
    calculate_generalized_advantage_estimator, discounted_rewards, check_numerics,
    seqV, b2q, vadd, vmul, vsub, vof]

/-- Claim C2, amended: for a trajectory batch of time length
`epoch_length = T`, the advantage always has time length `T - 1`; the
discounted-reward training target has time length `T - 1` in the
scalar-value mode but time length `T` in the distributional-value mode
(where it is recomputed by `discounted_rewards` over the full reward
tensor). -/
theorem epoch_targets_time_lengths (reward value_sm : List ℚ) (done : List Bool)
    (qexp : ℚ → ℚ) (value_smd : List (List ℚ)) (distributional_size : ℕ)
    (subscale threshold gae_gamma gae_lambda : ℚ) (T : ℕ)
    (hr : reward.length = T) (hv : value_sm.length = T) (hd : done.length = T)
    (hvd : value_smd.length = T) :
    (∀ a d, epoch_targets_scalar reward value_sm done gae_gamma gae_lambda
        = Except.ok (a, d) → a.length = T - 1 ∧ d.length = T - 1)
    ∧ (∀ a d, epoch_targets_distributional qexp reward done value_smd
        distributional_size subscale threshold gae_gamma gae_lambda
        = Except.ok (a, d) → a.length = T - 1 ∧ d.length = T) := by
  constructor
  · intro a d h
    simp only [epoch_targets_scalar] at h
    cases hg : calculate_generalized_advantage_estimator (reward.map vof)
        (value_sm.map vof) done gae_gamma gae_lambda with
    | error e => rw [hg] at h; simp at h
    | ok A =>
      rw [hg] at h
      simp only [Except.ok.injEq, Prod.mk.injEq] at h
      obtain ⟨ha, hdd⟩ := h
      have hA : A.length = T - 1 :=
        gae_ok_length (by simp [hr]) (by simp [hv]) hd hg
      constructor
      · rw [← ha, hA]
      · rw [← hdd]
        simp only [List.length_zipWith, List.length_dropLast, hv, hA]
        omega
  · intro a d h
    simp only [epoch_targets_distributional] at h
    cases hg : calculate_generalized_advantage_estimator (reward.map vof)
        (value_smd.map (fun row => distributional_to_value qexp row
          distributional_size subscale threshold)) done gae_gamma gae_lambda with
    | error e => rw [hg] at h; simp at h
    | ok A =>
      rw [hg] at h
      cases hdr : discounted_rewards (reward.map vof) done gae_gamma
          ((if threshold > 1 then
              value_smd.map (fun row => distributional_to_value qexp row
                distributional_size subscale 0)
            else value_smd.map (fun row => distributional_to_value qexp row
              distributional_size subscale threshold)).getLastD (vof 0)) with
      | error e => rw [hdr] at h; simp at h
      | ok R =>
        rw [hdr] at h
        simp only [Except.ok.injEq, Prod.mk.injEq] at h
        obtain ⟨ha, hdd⟩ := h
        constructor
        · rw [← ha]
          exact gae_ok_length (by simp [hr]) (by simp [hvd]) hd hg
        · rw [← hdd]
          exact discounted_rewards_ok_length (by simp [hr]) hd hdr

/-- Witness: the epoch-target length theorem applied at concrete inputs
of epoch length 2 in both value modes. -/
theorem epoch_targets_time_lengths_witness :
    (∀ a d, epoch_targets_scalar [0, 0] [1, 2] [false, false] 1 1
        = Except.ok (a, d) → a.length = 2 - 1 ∧ d.length = 2 - 1)
    ∧ (∀ a d, epoch_targets_distributional qexp1 [0, 0] [false, false]
        [[0, 0], [0, 0]] 2 1 0 1 1
        = Except.ok (a, d) → a.length = 2 - 1 ∧ d.length = 2) :=
  epoch_targets_time_lengths [0, 0] [1, 2] [false, false] qexp1
    [[0, 0], [0, 0]] 2 1 0 1 1 2 rfl rfl rfl rfl

/-- Counterexample to claim C4 as stated: with `distributional_size = 2`
and threshold `3/5` (a threshold value in `(0, 1]`), the epoch driver
produces the discounted-reward target `[1/2, 1/2]` — seeded with the
`3/5`-thresholded decode `1/2` of the last step — whereas recomputing the
target with the un-thresholded (threshold-0) decode `0` of the last step,
as the claim prescribes for every threshold value, yields `[0, 0]`. -/
theorem bootstrap_seed_counterexample :
    epoch_targets_distributional qexp1 [0, 0] [false, false] [[0, 0], [0, 0]]
        2 1 (3/5) 1 1
      = Except.ok ([0], [1/2, 1/2])
    ∧ discounted_rewards ([0, 0].map vof) [false, false] 1
        (distributional_to_value qexp1 [0, 0] 2 1 0)
      = Except.ok [0, 0]
    ∧ ([(1 : ℚ)/2, 1/2] : List ℚ) ≠ [0, 0] := by
  refine ⟨?_, ?_, by norm_num⟩
  · norm_num [epoch_targets_distributional, distributional_to_value, softmax,
      qexp1, value_range, List.range_succ, thresholded_probs, cumsum, tfScan,
      calculate_generalized_advantage_estimator, discounted_rewards,
      check_numerics, seqV, b2q, vadd, vmul, vsub, vof]
  · norm_num [distributional_to_value, softmax, qexp1, value_range,
      List.range_succ, discounted_rewards, check_numerics, seqV, b2q, tfScan,
      vadd, vmul, vof]

/-- Claim C4, amended: in the distributional mode the discounted-reward
training target is recomputed by the `DiscountedRewardAccumulator`, but
the bootstrap end value is the un-thresholded (threshold-0) decode of the
last time step only when `distributional_threshold > 1`; for every
threshold at most `1` the seed is the decoded value with the configured
threshold itself (which coincides with the plain decode only at
threshold `0`). -/
theorem bootstrap_seed_selection (qexp : ℚ → ℚ) (reward : List ℚ)
    (done : List Bool) (value_sm : List (List ℚ)) (distributional_size : ℕ)
    (subscale threshold gae_gamma gae_lambda : ℚ) (a d : List ℚ)
    (h : epoch_targets_distributional qexp reward done value_sm
      distributional_size subscale threshold gae_gamma gae_lambda
      = Except.ok (a, d)) :
    (threshold ≤ 1 →
      discounted_rewards (reward.map vof) done gae_gamma
          ((value_sm.map (fun row => distributional_to_value qexp row
            distributional_size subscale threshold)).getLastD (vof 0))
        = Except.ok d)
    ∧ (1 < threshold →
      discounted_rewards (reward.map vof) done gae_gamma
          ((value_sm.map (fun row => distributional_to_value qexp row
            distributional_size subscale 0)).getLastD (vof 0))
        = Except.ok d) := by
  simp only [epoch_targets_distributional] at h
  constructor
  · intro hle
    rw [if_neg (not_lt.mpr hle)] at h
    cases hg : calculate_generalized_advantage_estimator (reward.map vof)
        (value_sm.map (fun row => distributional_to_value qexp row
          distributional_size subscale threshold)) done gae_gamma gae_lambda with
    | error e => rw [hg] at h; simp at h
    | ok A =>
      rw [hg] at h
      cases hdr : discounted_rewards (reward.map vof) done gae_gamma
          ((value_sm.map (fun row => distributional_to_value qexp row
            distributional_size subscale threshold)).getLastD (vof 0)) with
      | error e => rw [hdr] at h; simp at h
      | ok R =>
        rw [hdr] at h
        simp only [Except.ok.injEq, Prod.mk.injEq] at h
        rw [← h.2]
  · intro hgt
    rw [if_pos hgt] at h
    cases hg : calculate_generalized_advantage_estimator (reward.map vof)
        (value_sm.map (fun row => distributional_to_value qexp row
          distributional_size subscale threshold)) done gae_gamma gae_lambda with
    | error e => rw [hg] at h; simp at h
    | ok A =>
      rw [hg] at h
      cases hdr : discounted_rewards (reward.map vof) done gae_gamma
          ((value_sm.map (fun row => distributional_to_value qexp row
            distributional_size subscale 0)).getLastD (vof 0)) with
      | error e => rw [hdr] at h; simp at h
      | ok R =>
        rw [hdr] at h
        simp only [Except.ok.injEq, Prod.mk.injEq] at h
        rw [← h.2]

/-- Witness: the bootstrap-seed theorem applied at the concrete
threshold-`3/5` run. -/
theorem bootstrap_seed_selection_witness :
    ((3 : ℚ)/5 ≤ 1 →
      discounted_rewards ([0, 0].map vof) [false, false] 1
          (([[0, 0], [0, 0]].map (fun row => distributional_to_value qexp1 row
            2 1 (3/5))).getLastD (vof 0))
        = Except.ok [1/2, 1/2])
    ∧ (1 < (3 : ℚ)/5 →
      discounted_rewards ([0, 0].map vof) [false, false] 1
          (([[0, 0], [0, 0]].map (fun row => distributional_to_value qexp1 row
            2 1 0)).getLastD (vof 0))
        = Except.ok [1/2, 1/2]) :=
  bootstrap_seed_selection qexp1 [0, 0] [false, false] [[0, 0], [0, 0]]
    2 1 (3/5) 1 1 [0] [1/2, 1/2]
    (by norm_num [epoch_targets_distributional, distributional_to_value, softmax,
      qexp1, value_range, List.range_succ, thresholded_probs, cumsum, tfScan,
      calculate_generalized_advantage_estimator, discounted_rewards,
      check_numerics, seqV, b2q, vadd, vmul, vsub, vof])

/-! ### The epoch loss summaries -/

/-- The running total of loss component `c` over the first `m`
minibatches. -/
def loss_prefix_sum (step_losses : ℕ → List ℚ) (c m : ℕ) : ℚ :=
  ((List.range m).map (fun i => (step_losses i).getD c 0)).sum

/-- The accumulating scan stacks the running loss totals: entry `k` of
`ppo_step_rets` is the componentwise running total after `k + 1`
minibatches. -/
theorem ppo_step_rets_eq (step_losses : ℕ → List ℚ)
    (hstep : ∀ i, (step_losses i).length = 3) (n : ℕ) :
    ppo_step_rets step_losses n
      = (List.range n).map (fun k =>
          [loss_prefix_sum step_losses 0 (k+1), loss_prefix_sum step_losses 1 (k+1),
            loss_prefix_sum step_losses 2 (k+1)]) := by
  induction n with
  | zero => rfl
  | succ n ih =>
    have hsplit : ppo_step_rets step_losses (n+1)
        = ppo_step_rets step_losses n
          ++ [add_lists_elementwise
                ((ppo_step_rets step_losses n).getLastD [0, 0, 0]) (step_losses n)] := by
      rw [ppo_step_rets, ppo_step_rets, List.range_succ, tfScan_append]
      rfl
    have hlast : (ppo_step_rets step_losses n).getLastD [0, 0, 0]
        = [loss_prefix_sum step_losses 0 n, loss_prefix_sum step_losses 1 n,
            loss_prefix_sum step_losses 2 n] := by
      rw [ih]
      cases n with
      | zero => simp [loss_prefix_sum]
      | succ m =>
        rw [List.range_succ, List.map_append]
        simp only [List.map_cons, List.map_nil, List.getLastD_concat]
    obtain ⟨s0, s1, s2, hs⟩ := List.length_eq_three.mp (hstep n)
    rw [hsplit, hlast, ih, List.range_succ, List.map_append]
    congr 1
    simp only [List.map_cons, List.map_nil]
    congr 1
    simp only [add_lists_elementwise, hs, List.zipWith_cons_cons,
      List.zipWith_nil_right, List.zipWith_nil_left]
    simp [loss_prefix_sum, List.range_succ, hs]

/-- Claim C1, amended (general form): the reported epoch summary for loss
component `c` is the mean over minibatch indices `k` of the running total
after `k + 1` minibatches, divided again by `number_of_batches` — i.e.
`(sum of all running totals) / n / n`, not the accumulated total divided
by `n`. -/
theorem ppo_summaries_weighted (step_losses : ℕ → List ℚ)
    (hstep : ∀ i, (step_losses i).length = 3) (n : ℕ) (c : ℕ) (hc : c < 3) :
    (ppo_summaries step_losses n).getD c 0
      = (((List.range n).map (fun k => loss_prefix_sum step_losses c (k+1))).sum / n) / n := by
  have hrets := ppo_step_rets_eq step_losses hstep n
  simp only [ppo_summaries, hrets, List.map_map]
  interval_cases c
  · simp only [List.getD_eq_getElem?_getD, List.getElem?_map,
      List.getElem?_range (by norm_num : (0:ℕ) < 3)]
    simp [reduce_mean, Function.comp_def, loss_prefix_sum]
  · simp only [List.getD_eq_getElem?_getD, List.getElem?_map,
      List.getElem?_range (by norm_num : (1:ℕ) < 3)]
    simp [reduce_mean, Function.comp_def, loss_prefix_sum]
  · simp only [List.getD_eq_getElem?_getD, List.getElem?_map,
      List.getElem?_range (by norm_num : (2:ℕ) < 3)]
    simp [reduce_mean, Function.comp_def, loss_prefix_sum]

/-- Counterexample to claim C1 as stated: two minibatches each reporting
loss `1` for every component accumulate to a total of `2`, so the
claimed epoch-mean is `2 / 2 = 1`; but the code reports
`mean [1, 1+1] / 2 = 3/4`, because the scan output it averages contains
every intermediate running total. -/
theorem ppo_summaries_claim_counterexample :
    ppo_summaries (fun _ => [1, 1, 1]) 2 = [3/4, 3/4, 3/4]
    ∧ loss_prefix_sum (fun _ => [1, 1, 1]) 0 2 / 2 = 1
    ∧ (3/4 : ℚ) ≠ 1 := by
  refine ⟨?_, ?_, by norm_num⟩
  · norm_num [ppo_summaries, ppo_step_rets, tfScan, add_lists_elementwise,
      reduce_mean, List.range_succ]
  · norm_num [loss_prefix_sum, List.range_succ]

/-- Witness: the amended summary theorem applied at two constant
minibatches, component 0. -/
theorem ppo_summaries_weighted_witness :
    (ppo_summaries (fun _ => [1, 1, 1]) 2).getD 0 0
      = (((List.range 2).map
          (fun k => loss_prefix_sum (fun _ => [1, 1, 1]) 0 (k+1))).sum / 2) / 2 :=
  ppo_summaries_weighted (fun _ => [1, 1, 1]) (fun _ => rfl) 2 0 (by norm_num)

/-! ### The shuffled minibatch index table -/

theorem flatten_length_const {α : Type} (perms : List (List α)) (L : ℕ)
    (h : ∀ p ∈ perms, p.length = L) :
    perms.flatten.length = perms.length * L := by
  induction perms with
  | nil => simp
  | cons p rest ih =>
    simp only [List.flatten_cons, List.length_append, List.length_cons,
      h p (by simp)]
    rw [ih (fun q hq => h q (by simp [hq]))]
    ring

/-- Segment `j` of the concatenation of equal-length blocks is block `j`. -/
theorem flatten_segment {α : Type} (perms : List (List α)) (L : ℕ)
    (h : ∀ p ∈ perms, p.length = L) (j : ℕ) (hj : j < perms.length) :
    ((perms.flatten.drop (j * L)).take L) = perms.getD j [] := by
  induction perms generalizing j with
  | nil => simp at hj
  | cons p rest ih =>
    cases j with
    | zero =>
      simp only [Nat.zero_mul, List.drop_zero, List.flatten_cons, List.getD_cons_zero]
      exact List.take_left' (h p (by simp))
    | succ j =>
      have hstep : (j + 1) * L = L + j * L := by ring
      rw [List.flatten_cons, List.getD_cons_succ, hstep, ← List.drop_drop,
        List.drop_left' (h p (by simp))]
      exact ih (fun q hq => h q (by simp [hq])) j (by simpa using hj)

/-- Counterexample to claim C8 as stated: with `epoch_length = 4`,
`optimization_epochs = 1`, `optimization_batch_size = 2` — an accepted
configuration, since `number_of_batches = 3 // 2 = 1 > 0` — and the
legitimate shuffle outcome `[0, 1, 2]` of `range 3`, the truncation to
`number_of_batches * optimization_batch_size = 2` entries cuts the single
permutation segment short: the index `2 < epoch_length - 1` never appears
in the segment (nor anywhere in the table `[[0, 1]]`). -/
theorem index_table_coverage_counterexample :
    List.Perm [0, 1, 2] (List.range 3)
    ∧ (number_of_batches_and_epoch_length 4 1 2 1 none).1 = 1
    ∧ indices_of_batches [[0, 1, 2]] 1 2 = [[0, 1]]
    ∧ (2 : ℕ) < 4 - 1
    ∧ ¬ (2 ∈ ((shuffled_indices [[0, 1, 2]] 1 2).drop (0 * (4 - 1))).take (4 - 1)) := by
  refine ⟨by decide, rfl, ?_, by decide, by decide⟩
  decide

/-- Claim C8, amended: in the `effective_num_agents = None` configuration
with a positive `optimization_batch_size`, given any per-epoch shuffle
outcomes (each a permutation of `range (epoch_length - 1)`), the
minibatch index table unconditionally has exactly `number_of_batches`
rows of exactly `optimization_batch_size` entries, and every entry is a
valid index in `[0, epoch_length - 1)`.  The coverage conjunct holds
under the additional condition that `optimization_batch_size` divides
`(epoch_length - 1) * optimization_epochs` (so the truncation step cuts
nothing): then every value of the range appears at least once within
the permutation segment of each single optimization epoch in the
concatenated shuffle. -/
theorem index_table_shape_validity_coverage (epoch_length optimization_epochs
    optimization_batch_size batch_size : ℕ) (perms : List (List ℕ))
    (hobs : 0 < optimization_batch_size)
    (hperms : perms.length = optimization_epochs)
    (hp : ∀ p ∈ perms, List.Perm p (List.range (epoch_length - 1))) :
    (indices_of_batches perms
        (number_of_batches_and_epoch_length epoch_length optimization_epochs
          optimization_batch_size batch_size none).1
        optimization_batch_size).length
      = (number_of_batches_and_epoch_length epoch_length optimization_epochs
          optimization_batch_size batch_size none).1
    ∧ (∀ row ∈ indices_of_batches perms
          (number_of_batches_and_epoch_length epoch_length optimization_epochs
            optimization_batch_size batch_size none).1
          optimization_batch_size,
        row.length = optimization_batch_size
        ∧ ∀ v ∈ row, v < epoch_length - 1)
    ∧ (optimization_batch_size ∣ (epoch_length - 1) * optimization_epochs →
        ∀ j < optimization_epochs, ∀ v < epoch_length - 1,
        v ∈ ((shuffled_indices perms
            (number_of_batches_and_epoch_length epoch_length optimization_epochs
              optimization_batch_size batch_size none).1
            optimization_batch_size).drop (j * (epoch_length - 1))).take
          (epoch_length - 1)) := by
  have hL : ∀ p ∈ perms, p.length = epoch_length - 1 := by
    intro p hmem
    rw [(hp p hmem).length_eq, List.length_range]
  have hfl : perms.flatten.length = (epoch_length - 1) * optimization_epochs := by
    rw [flatten_length_const perms (epoch_length - 1) hL, hperms]
    ring
  have hnb : (number_of_batches_and_epoch_length epoch_length optimization_epochs
      optimization_batch_size batch_size none).1
      = (epoch_length - 1) * optimization_epochs / optimization_batch_size := rfl
  have hnobs_le : (number_of_batches_and_epoch_length epoch_length optimization_epochs
      optimization_batch_size batch_size none).1 * optimization_batch_size
      ≤ (epoch_length - 1) * optimization_epochs := by
    rw [hnb]
    exact Nat.div_mul_le_self _ _
  have hslen : (shuffled_indices perms
      (number_of_batches_and_epoch_length epoch_length optimization_epochs
        optimization_batch_size batch_size none).1
      optimization_batch_size).length
      = (number_of_batches_and_epoch_length epoch_length optimization_epochs
        optimization_batch_size batch_size none).1 * optimization_batch_size := by
    rw [shuffled_indices, List.length_take, hfl]
    exact Nat.min_eq_left hnobs_le
  refine ⟨?_, ?_, ?_⟩
  · simp only [indices_of_batches, List.length_map, List.length_range, hslen]
    exact Nat.mul_div_cancel _ hobs
  · intro row hrow
    simp only [indices_of_batches, List.mem_map, List.mem_range, hslen] at hrow
    obtain ⟨i, hi, hroweq⟩ := hrow
    rw [Nat.mul_div_cancel _ hobs] at hi
    constructor
    · rw [← hroweq]
      simp only [List.length_take, List.length_drop, hslen]
      have h2 : (i + 1) * optimization_batch_size
          ≤ (number_of_batches_and_epoch_length epoch_length optimization_epochs
              optimization_batch_size batch_size none).1 * optimization_batch_size :=
        Nat.mul_le_mul_right _ hi
      have h3 : (i + 1) * optimization_batch_size
          = i * optimization_batch_size + optimization_batch_size := by ring
      rw [Nat.min_eq_left (Nat.le_sub_of_add_le (by omega))]
    · intro v hv
      have hvshuf : v ∈ shuffled_indices perms
          (number_of_batches_and_epoch_length epoch_length optimization_epochs
            optimization_batch_size batch_size none).1 optimization_batch_size := by
        rw [← hroweq] at hv
        exact (List.drop_sublist _ _).subset ((List.take_sublist _ _).subset hv)
      have hvs : v ∈ perms.flatten := by
        rw [shuffled_indices] at hvshuf
        exact (List.take_sublist _ _).subset hvshuf
      obtain ⟨p, hpmem, hvp⟩ := List.mem_flatten.mp hvs
      have := (hp p hpmem).mem_iff.mp hvp
      simpa using this
  · intro hdvd j hj v hv
    have hnobs : (number_of_batches_and_epoch_length epoch_length optimization_epochs
        optimization_batch_size batch_size none).1 * optimization_batch_size
        = (epoch_length - 1) * optimization_epochs := by
      rw [hnb]
      exact Nat.div_mul_cancel hdvd
    have hs : shuffled_indices perms
        (number_of_batches_and_epoch_length epoch_length optimization_epochs
          optimization_batch_size batch_size none).1 optimization_batch_size
        = perms.flatten := by
      rw [shuffled_indices, hnobs, ← hfl, List.take_length]
    rw [hs, flatten_segment perms (epoch_length - 1) hL j (by rw [hperms]; exact hj)]
    have hjlt : j < perms.length := by rw [hperms]; exact hj
    have hmem : perms.getD j [] ∈ perms := by
      rw [List.getD_eq_getElem _ _ hjlt]
      exact List.getElem_mem hjlt
    exact (hp _ hmem).mem_iff.mpr (by simpa using hv)

/-- Witness: the index-table theorem applied at a concrete accepted
configuration with a concrete shuffle outcome. -/
theorem index_table_shape_validity_coverage_witness :
    (indices_of_batches [[1, 0]]
        (number_of_batches_and_epoch_length 3 1 2 1 none).1 2).length
      = (number_of_batches_and_epoch_length 3 1 2 1 none).1
    ∧ (∀ row ∈ indices_of_batches [[1, 0]]
          (number_of_batches_and_epoch_length 3 1 2 1 none).1 2,
        row.length = 2 ∧ ∀ v ∈ row, v < 3 - 1)
    ∧ (2 ∣ (3 - 1) * 1 → ∀ j < 1, ∀ v < 3 - 1,
        v ∈ ((shuffled_indices [[1, 0]]
            (number_of_batches_and_epoch_length 3 1 2 1 none).1 2).drop
          (j * (3 - 1))).take (3 - 1)) :=
  index_table_shape_validity_coverage 3 1 2 1 [[1, 0]] (by decide) rfl
    (by decide)
